import Mathlib

/-!
# Verification of the SUMO round-based RSU logging pipeline

A shallow embedding of `rsu_logger_for_rounds.py` (the round-windowed
assignment/aggregation engine) and `analyse_membership.py` (the offline
handover and summary analyser), with theorems settling the specified
properties of the pipeline.

Modelling conventions:
* Python floats are modelled as exact rationals (`ℚ`); the lossy
  3-decimal `round(x, 3)` applied when printing CSV cells is not modelled
  (it is presentation only — every claim is about the accumulated values).
* Python dicts keyed by RSU id are modelled as total functions out of
  `String` (the source initialises every key it ever reads); insertion-
  ordered dicts whose key set matters are modelled as association lists.
* Python sets of vehicle ids are modelled as duplicate-free lists in
  insertion order.
* Euclidean distances: the source computes `d = math.hypot(...)` and only
  ever compares distances (`d <= radius`, `d < best_d`).  Both comparisons
  are rendered order-faithfully over the squared distance, which is exact
  in `ℚ`: for real `d = √s ≥ 0`, `d ≤ r ↔ 0 ≤ r ∧ s ≤ r²`, and
  `d < d' ↔ s < s'` for nonnegative distances.
-/

namespace SumoRounds

/-- Configuration of one coverage unit (RSU), the value of one entry of the
`rsus.json` registry: position and range radius. -/
structure Rsu where
  x : ℚ
  y : ℚ
  radius : ℚ
deriving Repr, DecidableEq

/-- The RSU registry `RSUS`: a Python dict `{rsu_id: {x, y, radius}}`,
modelled as an insertion-ordered association list (Python dicts preserve
insertion order, and `pick_closest_rsu` iterates in that order). -/
abbrev Registry := List (String × Rsu)

/-- Squared Euclidean distance between `(px, py)` and `(qx, qy)`:
the square of `distance` (source line 44-45, `math.hypot`). -/
def dist2 (px py qx qy : ℚ) : ℚ := (px - qx) ^ 2 + (py - qy) ^ 2

/-- The source's candidate test `d <= rsu["radius"]` (line 53), rendered
over squared distances: for the real distance `d = √(dist2 …) ≥ 0`,
`d ≤ radius` holds iff `0 ≤ radius ∧ dist2 … ≤ radius²`.  (The registry
validator, source lines 35-36, in fact guarantees `radius > 0`.) -/
def inRange (xv yv : ℚ) (pr : String × Rsu) : Prop :=
  0 ≤ pr.2.radius ∧ dist2 xv yv pr.2.x pr.2.y ≤ pr.2.radius ^ 2

instance (xv yv : ℚ) (pr : String × Rsu) : Decidable (inRange xv yv pr) := by
  unfold inRange; infer_instance

/-- One iteration of the loop body of `pick_closest_rsu` (source lines
51-56): keep the first unit seen so far that achieves the strictly
smallest in-range distance.  `best.2` carries the squared best distance
(`best_d is None` is `none`). -/
def pickStep (xv yv : ℚ) (best : Option String × Option ℚ) (pr : String × Rsu) :
    Option String × Option ℚ :=
  let d := dist2 xv yv pr.2.x pr.2.y
  if inRange xv yv pr then
    match best.2 with
    | none => (some pr.1, some d)
    | some bd => if d < bd then (some pr.1, some d) else best
  else best

/-- `pick_closest_rsu` (source lines 48-57): the closest RSU within its own
radius, or `(None, None)`; a pure function of the registry and the
position.  Exact ties in distance keep the earlier unit in registry
iteration order (the source updates only on strict `d < best_d`). -/
def pick_closest_rsu (regs : Registry) (xv yv : ℚ) : Option String × Option ℚ :=
  regs.foldl (pickStep xv yv) (none, none)

/-! ## The round-windowed streaming engine (`rsu_logger_for_rounds.run`) -/

/-- Pointwise update of a Python dict modelled as a total function
(`d[k] = v`; every key the source reads is initialised). -/
def upd {α : Type} (f : String → α) (k : String) (v : α) : String → α :=
  fun j => if j = k then v else f j

/-- `set.add(v)` on a Python set modelled as a duplicate-free list in
insertion order. -/
def insertSet (s : List String) (v : String) : List String :=
  if v ∈ s then s else s ++ [v]

/-- Insertion step of `sorted(...)` on vehicle-id lists. -/
def insertSorted (v : String) : List String → List String
  | [] => [v]
  | w :: ws => if v ≤ w then v :: w :: ws else w :: insertSorted v ws

/-- `sorted(list(veh_set))` (source line 134). -/
def sortStrings (l : List String) : List String := l.foldr insertSorted []

/-- `min` against a running minimum whose initial value is
`float("inf")` (modelled as `none`). -/
def minOpt : Option ℚ → ℚ → ℚ
  | none, d => d
  | some m, d => min m d

/-- `ROUND_LENGTH = 10.0` (source line 13). -/
def ROUND_LENGTH : ℚ := 10

/-- `int(t // ROUND_LENGTH)` (source line 176): for SUMO's nonnegative
float times, Python floor-division then `int` is the mathematical floor. -/
def roundOf (t : ℚ) : ℤ := ⌊t / ROUND_LENGTH⌋

/-- One observation inside a step: a vehicle id (from
`traci.vehicle.getIDList()`) with its position (`getPosition`). -/
structure Sample where
  veh : String
  x : ℚ
  y : ℚ
deriving Repr, DecidableEq

/-- One simulation step as run consumes it: the reported simulated time
`t` and the active vehicles in iteration order. -/
structure Batch where
  t : ℚ
  vehs : List Sample
deriving Repr, DecidableEq

/-- The per-round accumulators of `run` (source lines 88-102), the state
reset by `reset_round_accumulators`.  Dicts keyed by RSU id become total
functions; the two vehicle sets become duplicate-free lists;
`rsu_dist_min`'s initial `float("inf")` becomes `none`. -/
structure RoundAcc where
  round_membership : String → List String
  rsu_conn_time : String → ℚ
  rsu_dist_sum : String → ℚ
  rsu_dist_count : String → ℕ
  rsu_dist_min : String → Option ℚ
  rsu_dist_max : String → ℚ
  rsu_handover_in : String → ℕ
  rsu_handover_out : String → ℕ
  round_unique_seen : List String
  round_unique_connected : List String
  round_uncovered_vehicle_time : ℚ

/-- `reset_round_accumulators` (source lines 107-123). -/
def reset_round_accumulators : RoundAcc where
  round_membership := fun _ => []
  rsu_conn_time := fun _ => 0
  rsu_dist_sum := fun _ => 0
  rsu_dist_count := fun _ => 0
  rsu_dist_min := fun _ => none
  rsu_dist_max := fun _ => 0
  rsu_handover_in := fun _ => 0
  rsu_handover_out := fun _ => 0
  round_unique_seen := []
  round_unique_connected := []
  round_uncovered_vehicle_time := 0

/-- The instantaneous nearest-unit selection applied to one sample. -/
def selOf (regs : Registry) (s : Sample) : Option String :=
  (pick_closest_rsu regs s.x s.y).1

/-- The body of the per-vehicle loop of `run` (source lines 187-217),
threading the round accumulator and the cross-round `prev_assignment`
dict (modelled as a total function defaulting to `none`, the semantics
of `prev_assignment.get(veh_id, None)`). -/
def processSample (regs : Registry) (dt : ℚ) (s : Sample)
    (st : RoundAcc × (String → Option String)) : RoundAcc × (String → Option String) :=
  let pa := st.2
  let acc1 := { st.1 with round_unique_seen := insertSet st.1.round_unique_seen s.veh }
  let res := pick_closest_rsu regs s.x s.y
  let acc2 :=
    match pa s.veh, res.1 with
    | some p, some c =>
        if p ≠ c then
          { acc1 with
            rsu_handover_out := upd acc1.rsu_handover_out p (acc1.rsu_handover_out p + 1),
            rsu_handover_in := upd acc1.rsu_handover_in c (acc1.rsu_handover_in c + 1) }
        else acc1
    | _, _ => acc1
  let pa2 := upd pa s.veh res.1
  match res.1 with
  | none =>
      ({ acc2 with round_uncovered_vehicle_time := acc2.round_uncovered_vehicle_time + dt },
       pa2)
  | some u =>
      let acc3 := { acc2 with
        round_membership := upd acc2.round_membership u (insertSet (acc2.round_membership u) s.veh),
        round_unique_connected := insertSet acc2.round_unique_connected s.veh,
        rsu_conn_time := upd acc2.rsu_conn_time u (acc2.rsu_conn_time u + dt) }
      let acc4 :=
        match res.2 with
        | some dv => { acc3 with
            rsu_dist_sum := upd acc3.rsu_dist_sum u (acc3.rsu_dist_sum u + dv),
            rsu_dist_count := upd acc3.rsu_dist_count u (acc3.rsu_dist_count u + 1),
            rsu_dist_min := upd acc3.rsu_dist_min u (some (minOpt (acc3.rsu_dist_min u) dv)),
            rsu_dist_max := upd acc3.rsu_dist_max u (max (acc3.rsu_dist_max u) dv) }
        | none => acc3
      (acc4, pa2)

/-- One line of the membership JSONL log (source lines 130-136). -/
structure MembershipRecord where
  round : ℤ
  t_start : ℚ
  t_end : ℚ
  rsus : List (String × List String)
deriving Repr, DecidableEq

/-- One row of `rsu_round_stats.csv` (source lines 149-159); the empty
cells written when `rsu_dist_count == 0` become `none`.  The 3-decimal
`round(x, 3)` print formatting is not modelled. -/
structure RsuStatsRow where
  round : ℤ
  t_start : ℚ
  t_end : ℚ
  rsu_id : String
  unique_vehicles : ℕ
  total_connected_time_s : ℚ
  avg_dist : Option ℚ
  min_dist : Option ℚ
  max_dist : Option ℚ
  handover_in : ℕ
  handover_out : ℕ
deriving Repr, DecidableEq

/-- One row of `round_summary.csv` (source lines 161-166). -/
structure RoundSummaryRow where
  round : ℤ
  t_start : ℚ
  t_end : ℚ
  unique_vehicles_seen : ℕ
  unique_connected_vehicles : ℕ
  uncovered_vehicle_time_s : ℚ
deriving Repr, DecidableEq

/-- Everything `run` has durably written: the three append-only outputs. -/
structure Output where
  membership : List MembershipRecord
  rsu_stats : List RsuStatsRow
  round_summary : List RoundSummaryRow
deriving Repr, DecidableEq

/-- `flush_round(r)` (source lines 126-166): the records one flush
writes, computed from the accumulator state. -/
def flush_round (regs : Registry) (acc : RoundAcc) (r : ℤ) :
    MembershipRecord × List RsuStatsRow × RoundSummaryRow :=
  let t_start := (r : ℚ) * ROUND_LENGTH
  let t_end := ((r : ℚ) + 1) * ROUND_LENGTH
  let mem : MembershipRecord :=
    { round := r, t_start := t_start, t_end := t_end,
      rsus := regs.map (fun pr => (pr.1, sortStrings (acc.round_membership pr.1))) }
  let rows : List RsuStatsRow := regs.map (fun pr =>
    let cnt := acc.rsu_dist_count pr.1
    { round := r, t_start := t_start, t_end := t_end, rsu_id := pr.1,
      unique_vehicles := (acc.round_membership pr.1).length,
      total_connected_time_s := acc.rsu_conn_time pr.1,
      avg_dist := if 0 < cnt then some (acc.rsu_dist_sum pr.1 / cnt) else none,
      min_dist := if 0 < cnt then acc.rsu_dist_min pr.1 else none,
      max_dist := if 0 < cnt then some (acc.rsu_dist_max pr.1) else none,
      handover_in := acc.rsu_handover_in pr.1,
      handover_out := acc.rsu_handover_out pr.1 })
  let summary : RoundSummaryRow :=
    { round := r, t_start := t_start, t_end := t_end,
      unique_vehicles_seen := acc.round_unique_seen.length,
      unique_connected_vehicles := acc.round_unique_connected.length,
      uncovered_vehicle_time_s := acc.round_uncovered_vehicle_time }
  (mem, rows, summary)

/-- Appending one flush's records to the three logs (each flush writes a
complete membership record, the per-RSU rows, and the summary row). -/
def appendFlush (regs : Registry) (out : Output) (acc : RoundAcc) (r : ℤ) : Output :=
  let fl := flush_round regs acc r
  { membership := out.membership ++ [fl.1],
    rsu_stats := out.rsu_stats ++ fl.2.1,
    round_summary := out.round_summary ++ [fl.2.2] }

/-- The loop-carried state of `run`: the open round, the previous step's
time, the round accumulators, and the cross-round `prev_assignment`. -/
structure RunState where
  current_round : Option ℤ
  prev_t : Option ℚ
  acc : RoundAcc
  prev_assignment : String → Option String

/-- State on entry to the while loop (source lines 84-105). -/
def initState : RunState where
  current_round := none
  prev_t := none
  acc := reset_round_accumulators
  prev_assignment := fun _ => none

/-- One iteration of the while loop of `run` (source lines 168-217):
compute `dt` and the batch's round index, flush-and-reset on a round
boundary, then fold the per-vehicle loop over the step's vehicles. -/
def processBatch (regs : Registry) (st : RunState × Output) (b : Batch) :
    RunState × Output :=
  let s := st.1
  let dt : ℚ := match s.prev_t with
    | none => 0
    | some pt => max 0 (b.t - pt)
  let r := roundOf b.t
  let (s2, out2) : RunState × Output :=
    match s.current_round with
    | none =>
        ({ s with
            prev_t := some b.t
            current_round := some r
            acc := reset_round_accumulators }, st.2)
    | some cr =>
        if r ≠ cr then
          ({ s with
              prev_t := some b.t
              current_round := some r
              acc := reset_round_accumulators },
           appendFlush regs st.2 s.acc cr)
        else ({ s with prev_t := some b.t }, st.2)
  let folded := b.vehs.foldl (fun p smp => processSample regs dt smp p)
    (s2.acc, s2.prev_assignment)
  ({ s2 with acc := folded.1, prev_assignment := folded.2 }, out2)

/-- The while loop of `run` having consumed the given batches (the final
flush at source line 219 not yet executed). -/
def runLoop (regs : Registry) (batches : List Batch) : RunState × Output :=
  batches.foldl (processBatch regs) (initState, Output.mk [] [] [])

/-- The final flush (source lines 219-220). -/
def finalFlush (regs : Registry) (st : RunState × Output) : Output :=
  match st.1.current_round with
  | none => st.2
  | some cr => appendFlush regs st.2 st.1.acc cr

/-- A complete normal run: the while loop followed by the final flush. -/
def run (regs : Registry) (batches : List Batch) : Output :=
  finalFlush regs (runLoop regs batches)

/-- The output durably written when the stream raises after the given
batches: the `try/finally` in `__main__` (source lines 230-233) only
closes the traci connection, so no further flush runs. -/
def runAborted (regs : Registry) (batches : List Batch) : Output :=
  (runLoop regs batches).2

/-! ## Round-level and spec-level derived views -/

/-- Folding the per-vehicle loop over a flat list of `(dt, sample)`
pairs: the order in which `run` feeds one round's samples to
`processSample`. -/
def samplesFold (regs : Registry) (st : RoundAcc × (String → Option String))
    (l : List (ℚ × Sample)) : RoundAcc × (String → Option String) :=
  l.foldl (fun p q => processSample regs q.1 q.2 p) st

/-- Flattening a round's steps (each a `dt` shared by that step's
vehicle list) into `(dt, sample)` pairs. -/
def stepSamples (steps : List (ℚ × List Sample)) : List (ℚ × Sample) :=
  (steps.map (fun st => st.2.map (fun s => (st.1, s)))).flatten

/-- One round as `run` executes it: from freshly reset accumulators (and
the carried-over `prev_assignment`), fold every step of the round. -/
def foldRound (regs : Registry) (pa : String → Option String)
    (steps : List (ℚ × List Sample)) : RoundAcc × (String → Option String) :=
  steps.foldl (fun st q => q.2.foldl (fun p smp => processSample regs q.1 smp p) st)
    (reset_round_accumulators, pa)

/-- The handover condition of source line 197: previous and current
assignments both non-none and different. -/
def handoverEvent (prev curr : Option String) : Bool :=
  match prev, curr with
  | some p, some c => decide (p ≠ c)
  | _, _ => false

/-- The units under which a vehicle is listed in a membership record. -/
def assignedUnits (m : MembershipRecord) (v : String) : List String :=
  (m.rsus.filter (fun pr => decide (v ∈ pr.2))).map Prod.fst

/-- Total uncovered time contributed by a sample list: `dt` summed over
exactly the samples whose selection is `none`. -/
def uncoveredTimeOf (regs : Registry) (l : List (ℚ × Sample)) : ℚ :=
  ((l.filter (fun q => decide (selOf regs q.2 = none))).map Prod.fst).sum

/-- The elapsed `dt` carried by one vehicle's samples in a list. -/
def vehTimeOf (l : List (ℚ × Sample)) (v : String) : ℚ :=
  ((l.filter (fun q => decide (q.2.veh = v))).map Prod.fst).sum

/-- The accumulated connected time of vehicle `v` at unit `u` over a
round's samples — the spec's `VehicleUnitTime[v][u]` (the source keeps no
such per-vehicle table; this derived view is needed to state the
specified winner-take-most assignment). -/
def vehicleUnitTime (regs : Registry) (l : List (ℚ × Sample)) (v u : String) : ℚ :=
  ((l.filter (fun q => decide (q.2.veh = v ∧ selOf regs q.2 = some u))).map Prod.fst).sum

/-- The spec-side view of `prev_assignment`: the selection at the
vehicle's most recent sample of the whole run, `none` if never sampled. -/
def lastAssigned (regs : Registry) (batches : List Batch) (v : String) : Option String :=
  ((batches.map Batch.vehs).flatten).foldl
    (fun m s => if s.veh = v then selOf regs s else m) none

/-- The round index of each batch in stream order. -/
def batchRounds (batches : List Batch) : List ℤ :=
  batches.map (fun b => roundOf b.t)

/-- Collapse consecutive duplicates: the sequence of distinct open
rounds produced by a round-index stream. -/
def compressRounds : List ℤ → List ℤ
  | [] => []
  | [r] => [r]
  | r :: r2 :: rest =>
      if r = r2 then compressRounds (r2 :: rest) else r :: compressRounds (r2 :: rest)

/-- Last element of a list with default (`lastD d l = (d :: l).getLast`). -/
def lastD (d : ℤ) : List ℤ → ℤ
  | [] => d
  | r :: rs => lastD r rs

/-- The integer interval `[a, b]` as a list. -/
def rangeInts (a b : ℤ) : List ℤ :=
  (List.range (b + 1 - a).toNat).map (fun (k : ℕ) => a + (k : ℤ))

/-! ## The offline analyser (`analyse_membership.main`) -/

/-- One record of the stats log `round_stats.jsonl` as the analyser
consumes it.  Scalar fields are read with `.get(key, "")`, so a missing
JSON field is `none`; `rsu_total_connected_time_s` is a JSON object. -/
structure StatsRec where
  vehicles_seen_count : Option ℚ
  vehicles_connected_count : Option ℚ
  uncovered_vehicle_time_s : Option ℚ
  rsu_total_connected_time_s : List (String × ℚ)
deriving Repr, DecidableEq

/-- Python dict assignment `out[k] = v` on an insertion-ordered dict
with unique keys: overwrite in place, else append. -/
def dinsert {α : Type} (l : List (String × α)) (k : String) (v : α) :
    List (String × α) :=
  if k ∈ l.map Prod.fst then l.map (fun p => if p.1 = k then (k, v) else p)
  else l ++ [(k, v)]

/-- `invert_membership` (analyser source lines 26-31): vehicle → unit;
when a vehicle is listed under several units the last unit iterated
wins, exactly as repeated dict assignment does. -/
def invert_membership (rsus : List (String × List String)) : List (String × String) :=
  rsus.foldl (fun out pr => pr.2.foldl (fun o v => dinsert o v pr.1) out) []

/-- `prev_assign.get(v)` — a dict with `Optional[str]` values, so an
absent key and a stored `None` both read as `none`. -/
def dgetOpt (l : List (String × Option String)) (v : String) : Option String :=
  (List.lookup v l).join

/-- `curr_assign.get(v)`. -/
def dget (l : List (String × String)) (v : String) : Option String :=
  List.lookup v l

/-- The handover-counting loop of the analyser (source lines 84-93),
folded over `all_vehs`.  The dicts `hand_out`/`hand_in` (initialised to
0 on the current record's unit ids and read back with `.get(_, 0)`) are
modelled as total functions defaulting to 0, which agrees with every
read the source performs.  Returns `(hand_out, hand_in)`. -/
def handCounts (prev_assign : List (String × Option String))
    (curr_assign : List (String × String)) (all_vehs : List String) :
    (String → ℕ) × (String → ℕ) :=
  all_vehs.foldl
    (fun ho v =>
      match dgetOpt prev_assign v, dget curr_assign v with
      | some p, some c =>
          if p ≠ c then (upd ho.1 p (ho.1 p + 1), upd ho.2 c (ho.2 c + 1)) else ho
      | _, _ => ho)
    (fun _ => 0, fun _ => 0)

/-- `all_vehs = set(curr_assign.keys()) | set(prev_assign.keys())`
(source line 87).  Python set iteration order is unspecified; it is
modelled as first-occurrence order, on which every result built from it
is independent (the counts are commutative sums, the new dict is
pointwise). -/
def allVehsOf (prev_assign : List (String × Option String))
    (curr_assign : List (String × String)) : List String :=
  (curr_assign.map Prod.fst ++ prev_assign.map Prod.fst).dedup

/-- The handover-out condition of the analyser's counting loop, as a
predicate on a vehicle `v`: a non-none unit in the carried state and a
non-none unit in the current inverted membership, differing, with the
old unit equal to `u`. -/
def handOutEvent (prevA : List (String × Option String))
    (currA : List (String × String)) (u v : String) : Bool :=
  match dgetOpt prevA v, dget currA v with
  | some p, some c => decide (p ≠ c) && decide (p = u)
  | _, _ => false

/-- The handover-in condition: as `handOutEvent`, with the new unit
equal to `u`. -/
def handInEvent (prevA : List (String × Option String))
    (currA : List (String × String)) (u v : String) : Bool :=
  match dgetOpt prevA v, dget currA v with
  | some p, some c => decide (p ≠ c) && decide (c = u)
  | _, _ => false

/-- One row of the analyser's `round_summary.csv` (source lines 74-79);
`none` models the empty cell substituted for a missing stats field. -/
structure AnalyzerSummaryRow where
  round : ℤ
  t_start : ℚ
  t_end : ℚ
  vehicles_seen_count : Option ℚ
  vehicles_connected_count : Option ℚ
  uncovered_vehicle_time_s : Option ℚ
deriving Repr, DecidableEq

/-- One row of the analyser's `rsu_round_stats.csv` (source lines
96-104). -/
structure AnalyzerRsuRow where
  round : ℤ
  t_start : ℚ
  t_end : ℚ
  rsu_id : String
  unique_vehicles : ℕ
  total_connected_time_s : Option ℚ
  handover_in : ℕ
  handover_out : ℕ
deriving Repr, DecidableEq

/-- The body of the analyser's per-membership-record loop (source lines
64-107): emit the round summary row, count handovers against the carried
`prev_assign`, emit the per-RSU rows, and rebuild `prev_assign`
(vehicles absent this round map to `None`).  `stats?` is
`stats_by_round.get(r, {})`: `none` when the round is absent from the
stats log. -/
def analyzeRound (prev_assign : List (String × Option String))
    (rec : MembershipRecord) (stats? : Option StatsRec) :
    AnalyzerSummaryRow × List AnalyzerRsuRow × List (String × Option String) :=
  let rsu_time : List (String × ℚ) := match stats? with
    | none => []
    | some st => st.rsu_total_connected_time_s
  let summary : AnalyzerSummaryRow :=
    { round := rec.round, t_start := rec.t_start, t_end := rec.t_end,
      vehicles_seen_count := stats?.bind StatsRec.vehicles_seen_count,
      vehicles_connected_count := stats?.bind StatsRec.vehicles_connected_count,
      uncovered_vehicle_time_s := stats?.bind StatsRec.uncovered_vehicle_time_s }
  let curr_assign := invert_membership rec.rsus
  let all_vehs := allVehsOf prev_assign curr_assign
  let hands := handCounts prev_assign curr_assign all_vehs
  let rows : List AnalyzerRsuRow := rec.rsus.map (fun pr =>
    { round := rec.round, t_start := rec.t_start, t_end := rec.t_end,
      rsu_id := pr.1,
      unique_vehicles := pr.2.length,
      total_connected_time_s := List.lookup pr.1 rsu_time,
      handover_in := hands.2 pr.1,
      handover_out := hands.1 pr.1 })
  let new_prev : List (String × Option String) :=
    all_vehs.map (fun v => (v, dget curr_assign v))
  (summary, rows, new_prev)

/-! ## Concrete fixtures -/

/-- A registry with two units 100 m apart, each of radius 10. -/
def regsTwo : Registry := [("u0", ⟨0, 0, 10⟩), ("u1", ⟨100, 0, 10⟩)]

/-- A single-unit registry. -/
def regsOne : Registry := [("u0", ⟨0, 0, 10⟩)]

/-- A two-unit registry whose units both cover the origin. -/
def regsNear : Registry := [("a", ⟨0, 0, 5⟩), ("b", ⟨3, 0, 5⟩)]

/-- One vehicle connecting to `u0` and later to `u1` inside round 0. -/
def batchesC1 : List Batch :=
  [⟨0, [⟨"car", 0, 0⟩]⟩, ⟨5, [⟨"car", 100, 0⟩]⟩]

/-- The spec's worked example: vehicle `v` accumulates 5 s at `u0`
(t = 0 → 5) and then 4 s at `u1` (t = 5 → 9), all inside round 0. -/
def batchesC3 : List Batch :=
  [⟨0, [⟨"v", 0, 0⟩]⟩, ⟨5, [⟨"v", 0, 0⟩]⟩, ⟨9, [⟨"v", 100, 0⟩]⟩]

/-- A time stream that skips round 1 entirely (t = 5 then t = 25). -/
def batchesC2 : List Batch := [⟨5, []⟩, ⟨25, []⟩]

/-- Chained batches covering rounds 0, 1, 2 with every step gap below
`ROUND_LENGTH`. -/
def batchesC2w : List Batch := [⟨5, []⟩, ⟨12, []⟩, ⟨21, []⟩]

/-- One round-0 batch with one observed vehicle. -/
def batchesC4 : List Batch := [⟨5, [⟨"veh", 0, 0⟩]⟩]

/-- Vehicle `w` assigned to `u0` in round 0, absent from round 1,
reappearing in range of `u1` in round 2. -/
def batchesC8 : List Batch :=
  [⟨5, [⟨"w", 0, 0⟩]⟩, ⟨15, []⟩, ⟨25, [⟨"w", 100, 0⟩]⟩]

/-- The `(dt, samples)` steps of round 0 of `batchesC3` as `run` feeds
them to `processSample`: `dt = 0, 5, 4`. -/
def stepsC3 : List (ℚ × List Sample) :=
  [(0, [⟨"v", 0, 0⟩]), (5, [⟨"v", 0, 0⟩]), (4, [⟨"v", 100, 0⟩])]

/-- Round steps in which vehicle `far` is out of range of `regsOne`. -/
def stepsC6 : List (ℚ × List Sample) :=
  [(0, [⟨"far", 50, 50⟩]), (5, [⟨"far", 50, 50⟩])]

/-- A membership record for the analyser fixtures: round 3, vehicles
`m` on `u0` and `n` on `u1`. -/
def recC9 : MembershipRecord :=
  ⟨3, 30, 40, [("u0", ["m"]), ("u1", ["n"])]⟩

/-- Carried analyser state: `m` previously on `u1`, `gone` previously on
`u0`, `stale` previously dropped to `None`. -/
def prevC9 : List (String × Option String) :=
  [("m", some "u1"), ("gone", some "u0"), ("stale", none)]

/-- Loop invariant for `pick_closest_rsu`: after scanning the entries of
`seen`, the accumulator is `(none, none)` iff no scanned entry is in
range, and otherwise holds a scanned, in-range unit of minimal squared
distance (with its distance). -/
def PickInv (xv yv : ℚ) (seen : Registry) : Option String × Option ℚ → Prop
  | (none, none) => ∀ pr ∈ seen, ¬ inRange xv yv pr
  | (some i, some d) =>
      (∃ u, (i, u) ∈ seen ∧ inRange xv yv (i, u) ∧ dist2 xv yv u.x u.y = d) ∧
      ∀ pr ∈ seen, inRange xv yv pr → d ≤ dist2 xv yv pr.2.x pr.2.y
  | (none, some _) => False
  | (some _, none) => False

lemma pickStep_inv (xv yv : ℚ) (seen : Registry) (b : Option String × Option ℚ)
    (pr : String × Rsu) (h : PickInv xv yv seen b) :
    PickInv xv yv (seen ++ [pr]) (pickStep xv yv b pr) := by
  obtain ⟨b1, b2⟩ := b
  by_cases hin : inRange xv yv pr
  · cases b2 with
    | none =>
      cases b1 with
      | none =>
        simp only [PickInv] at h
        simp only [pickStep, hin, if_true, PickInv]
        refine ⟨⟨pr.2, ?_, hin, rfl⟩, ?_⟩
        · simp
        · intro q hq hq2
          rcases List.mem_append.mp hq with hq | hq
          · exact absurd hq2 (h q hq)
          · simp only [List.mem_singleton] at hq
            subst hq; exact le_refl _
      | some i => exact absurd h (by simp [PickInv])
    | some bd =>
      cases b1 with
      | none => exact absurd h (by simp [PickInv])
      | some i =>
        simp only [PickInv] at h
        obtain ⟨⟨u, hu, huin, hud⟩, hmin⟩ := h
        by_cases hlt : dist2 xv yv pr.2.x pr.2.y < bd
        · simp only [pickStep, hin, if_true, hlt, PickInv]
          refine ⟨⟨pr.2, by simp, hin, rfl⟩, ?_⟩
          intro q hq hq2
          rcases List.mem_append.mp hq with hq | hq
          · exact le_of_lt (lt_of_lt_of_le hlt (hmin q hq hq2))
          · simp only [List.mem_singleton] at hq
            subst hq; exact le_refl _
        · simp only [pickStep, hin, if_true, hlt, if_false, PickInv]
          refine ⟨⟨u, List.mem_append_left _ hu, huin, hud⟩, ?_⟩
          intro q hq hq2
          rcases List.mem_append.mp hq with hq | hq
          · exact hmin q hq hq2
          · simp only [List.mem_singleton] at hq
            subst hq; exact not_lt.mp hlt
  · have hstep : pickStep xv yv (b1, b2) pr = (b1, b2) := by
      simp [pickStep, hin]
    rw [hstep]
    cases b1 <;> cases b2 <;> simp only [PickInv] at h ⊢ <;> try exact h
    · intro q hq
      rcases List.mem_append.mp hq with hq | hq
      · exact h q hq
      · simp only [List.mem_singleton] at hq
        subst hq; exact hin
    · obtain ⟨⟨u, hu, huin, hud⟩, hmin⟩ := h
      refine ⟨⟨u, List.mem_append_left _ hu, huin, hud⟩, ?_⟩
      intro q hq hq2
      rcases List.mem_append.mp hq with hq | hq
      · exact hmin q hq hq2
      · simp only [List.mem_singleton] at hq
        subst hq; exact absurd hq2 hin

lemma pickFold_inv (xv yv : ℚ) :
    ∀ (l : List (String × Rsu)) (seen : Registry) (b : Option String × Option ℚ),
      PickInv xv yv seen b → PickInv xv yv (seen ++ l) (l.foldl (pickStep xv yv) b) := by
  intro l
  induction l with
  | nil => intro seen b h; simpa using h
  | cons pr rest ih =>
    intro seen b h
    have h2 := pickStep_inv xv yv seen b pr h
    have h3 := ih (seen ++ [pr]) (pickStep xv yv b pr) h2
    simpa [List.append_assoc] using h3

lemma pick_inv (regs : Registry) (xv yv : ℚ) :
    PickInv xv yv regs (pick_closest_rsu regs xv yv) := by
  have h := pickFold_inv xv yv regs [] (none, none) (by simp [PickInv])
  simpa [pick_closest_rsu] using h

/-- Claim C5 — `pick_closest_rsu` returns `none` exactly when no unit's
distance to the position is within that unit's radius; otherwise it
returns an in-range unit of minimal distance among all in-range units.
It is a plain function of the registry and the position (purity is
definitional in this embedding). -/
theorem pick_selects_nearest_in_range (regs : Registry) (xv yv : ℚ) :
    ((pick_closest_rsu regs xv yv).1 = none ↔ ∀ pr ∈ regs, ¬ inRange xv yv pr) ∧
    ∀ i, (pick_closest_rsu regs xv yv).1 = some i →
      ∃ u, (i, u) ∈ regs ∧ inRange xv yv (i, u) ∧
        ∀ pr ∈ regs, inRange xv yv pr →
          dist2 xv yv u.x u.y ≤ dist2 xv yv pr.2.x pr.2.y := by
  have inv := pick_inv regs xv yv
  rcases hres : pick_closest_rsu regs xv yv with ⟨o1, o2⟩
  rw [hres] at inv
  cases o1 with
  | none =>
    cases o2 with
    | none =>
      simp only [PickInv] at inv
      exact ⟨⟨fun _ => inv, fun _ => rfl⟩, fun i hi => absurd hi (by simp)⟩
    | some d => exact absurd inv (by simp [PickInv])
  | some i0 =>
    cases o2 with
    | none => exact absurd inv (by simp [PickInv])
    | some d =>
      simp only [PickInv] at inv
      obtain ⟨⟨u, hu, huin, hud⟩, hmin⟩ := inv
      constructor
      · constructor
        · intro h; exact absurd h (by simp)
        · intro hall; exact absurd huin (hall (i0, u) hu)
      · intro i hi
        simp only [Option.some.injEq] at hi
        subst hi
        refine ⟨u, hu, huin, ?_⟩
        intro pr hpr hprin
        have := hmin pr hpr hprin
        rw [hud]
        exact this

/-- Witness for C5 at a concrete registry and position: both units of
`regsNear` cover the origin and the closer one (`a`) is selected. -/
theorem pick_selects_nearest_in_range_witness :
    ∃ u, ("a", u) ∈ regsNear ∧ inRange 0 0 ("a", u) ∧
      ∀ pr ∈ regsNear, inRange 0 0 pr →
        dist2 0 0 u.x u.y ≤ dist2 0 0 pr.2.x pr.2.y :=
  (pick_selects_nearest_in_range regsNear 0 0).2 "a" (by
    norm_num [pick_closest_rsu, regsNear, pickStep, inRange, dist2, List.foldl])

/-! ## Per-sample effect lemmas for the streaming engine -/

lemma ps_seen (regs : Registry) (dt : ℚ) (s : Sample)
    (st : RoundAcc × (String → Option String)) :
    (processSample regs dt s st).1.round_unique_seen =
      insertSet st.1.round_unique_seen s.veh := by
  rcases hres : pick_closest_rsu regs s.x s.y with ⟨o1, o2⟩
  cases o1 <;> cases o2 <;> rcases hpa : st.2 s.veh with _ | p <;>
    simp [processSample, hres, hpa] <;> split_ifs <;> simp

lemma ps_pa (regs : Registry) (dt : ℚ) (s : Sample)
    (st : RoundAcc × (String → Option String)) :
    (processSample regs dt s st).2 = upd st.2 s.veh (selOf regs s) := by
  rcases hres : pick_closest_rsu regs s.x s.y with ⟨o1, o2⟩
  have hsel : selOf regs s = o1 := by rw [selOf, hres]
  cases o1 <;> cases o2 <;> rcases hpa : st.2 s.veh with _ | p <;>
    simp [processSample, hres, hpa, hsel] <;> split_ifs <;> simp

lemma ps_membership (regs : Registry) (dt : ℚ) (s : Sample)
    (st : RoundAcc × (String → Option String)) (u : String) :
    (processSample regs dt s st).1.round_membership u =
      (if selOf regs s = some u then insertSet (st.1.round_membership u) s.veh
       else st.1.round_membership u) := by
  rcases hres : pick_closest_rsu regs s.x s.y with ⟨o1, o2⟩
  have hsel : selOf regs s = o1 := by rw [selOf, hres]
  rw [hsel]
  cases o1 with
  | none =>
    cases o2 <;> rcases hpa : st.2 s.veh with _ | p <;>
      simp [processSample, hres, hpa]
  | some c =>
    by_cases hu : u = c
    · subst hu
      cases o2 <;> rcases hpa : st.2 s.veh with _ | p <;>
        simp [processSample, hres, hpa, upd] <;> split_ifs <;> simp
    · have hcu : ¬ (c = u) := fun h => hu h.symm
      cases o2 <;> rcases hpa : st.2 s.veh with _ | p <;>
        simp [processSample, hres, hpa, upd, hu, hcu] <;> split_ifs <;> simp

lemma ps_connected (regs : Registry) (dt : ℚ) (s : Sample)
    (st : RoundAcc × (String → Option String)) :
    (processSample regs dt s st).1.round_unique_connected =
      (if selOf regs s = none then st.1.round_unique_connected
       else insertSet st.1.round_unique_connected s.veh) := by
  rcases hres : pick_closest_rsu regs s.x s.y with ⟨o1, o2⟩
  have hsel : selOf regs s = o1 := by rw [selOf, hres]
  cases o1 <;> cases o2 <;> rcases hpa : st.2 s.veh with _ | p <;>
    simp [processSample, hres, hpa, hsel] <;> split_ifs <;> simp

lemma ps_uncovered (regs : Registry) (dt : ℚ) (s : Sample)
    (st : RoundAcc × (String → Option String)) :
    (processSample regs dt s st).1.round_uncovered_vehicle_time =
      st.1.round_uncovered_vehicle_time + (if selOf regs s = none then dt else 0) := by
  rcases hres : pick_closest_rsu regs s.x s.y with ⟨o1, o2⟩
  have hsel : selOf regs s = o1 := by rw [selOf, hres]
  cases o1 <;> cases o2 <;> rcases hpa : st.2 s.veh with _ | p <;>
    simp [processSample, hres, hpa, hsel] <;> split_ifs <;> simp

lemma ps_hand_out (regs : Registry) (dt : ℚ) (s : Sample)
    (st : RoundAcc × (String → Option String)) (u : String) :
    (processSample regs dt s st).1.rsu_handover_out u =
      st.1.rsu_handover_out u +
        (if handoverEvent (st.2 s.veh) (selOf regs s) = true ∧ st.2 s.veh = some u
         then 1 else 0) := by
  rcases hres : pick_closest_rsu regs s.x s.y with ⟨o1, o2⟩
  have hsel : selOf regs s = o1 := by rw [selOf, hres]
  rw [hsel]
  rcases hpa : st.2 s.veh with _ | p
  · cases o1 <;> cases o2 <;> simp [processSample, hres, hpa, handoverEvent]
  · cases o1 with
    | none => cases o2 <;> simp [processSample, hres, hpa, handoverEvent]
    | some c =>
      by_cases hpc : p = c
      · subst hpc
        cases o2 <;> simp [processSample, hres, hpa, handoverEvent]
      · by_cases hup : u = p
        · subst hup
          cases o2 <;> simp [processSample, hres, hpa, handoverEvent, upd, hpc]
        · have hpu : ¬ (p = u) := fun h => hup h.symm
          cases o2 <;> simp [processSample, hres, hpa, handoverEvent, upd, hpc, hup, hpu]

lemma ps_hand_in (regs : Registry) (dt : ℚ) (s : Sample)
    (st : RoundAcc × (String → Option String)) (u : String) :
    (processSample regs dt s st).1.rsu_handover_in u =
      st.1.rsu_handover_in u +
        (if handoverEvent (st.2 s.veh) (selOf regs s) = true ∧ selOf regs s = some u
         then 1 else 0) := by
  rcases hres : pick_closest_rsu regs s.x s.y with ⟨o1, o2⟩
  have hsel : selOf regs s = o1 := by rw [selOf, hres]
  rw [hsel]
  rcases hpa : st.2 s.veh with _ | p
  · cases o1 <;> cases o2 <;> simp [processSample, hres, hpa, handoverEvent]
  · cases o1 with
    | none => cases o2 <;> simp [processSample, hres, hpa, handoverEvent]
    | some c =>
      by_cases hpc : p = c
      · subst hpc
        cases o2 <;> simp [processSample, hres, hpa, handoverEvent]
      · by_cases huc : u = c
        · subst huc
          cases o2 <;> simp [processSample, hres, hpa, handoverEvent, upd, hpc]
        · have hcu : ¬ (c = u) := fun h => huc h.symm
          cases o2 <;> simp [processSample, hres, hpa, handoverEvent, upd, hpc, huc, hcu]

/-! ## Round-level characterisations -/

lemma mem_insertSet {s : List String} {v w : String} :
    v ∈ insertSet s w ↔ v ∈ s ∨ v = w := by
  unfold insertSet
  split_ifs with h
  · constructor
    · exact fun hv => Or.inl hv
    · rintro (hv | hv)
      · exact hv
      · rwa [hv]
  · simp [List.mem_append]

lemma samplesFold_cons (regs : Registry) (st : RoundAcc × (String → Option String))
    (q : ℚ × Sample) (l : List (ℚ × Sample)) :
    samplesFold regs st (q :: l) = samplesFold regs (processSample regs q.1 q.2 st) l := rfl

lemma sf_seen (regs : Registry) (v : String) :
    ∀ (l : List (ℚ × Sample)) (st : RoundAcc × (String → Option String)),
      (v ∈ (samplesFold regs st l).1.round_unique_seen ↔
        v ∈ st.1.round_unique_seen ∨ ∃ q ∈ l, q.2.veh = v) := by
  intro l
  induction l with
  | nil => intro st; simp [samplesFold]
  | cons q rest ih =>
    intro st
    rw [samplesFold_cons, ih]
    rw [ps_seen, mem_insertSet]
    constructor
    · rintro ((h | h) | h)
      · exact Or.inl h
      · exact Or.inr ⟨q, List.mem_cons_self _ _, h.symm⟩
      · obtain ⟨p, hp, hpv⟩ := h
        exact Or.inr ⟨p, List.mem_cons_of_mem _ hp, hpv⟩
    · rintro (h | h)
      · exact Or.inl (Or.inl h)
      · obtain ⟨p, hp, hpv⟩ := h
        rcases List.mem_cons.mp hp with hq | hq
        · subst hq; exact Or.inl (Or.inr hpv.symm)
        · exact Or.inr ⟨p, hq, hpv⟩

lemma sf_connected (regs : Registry) (v : String) :
    ∀ (l : List (ℚ × Sample)) (st : RoundAcc × (String → Option String)),
      (v ∈ (samplesFold regs st l).1.round_unique_connected ↔
        v ∈ st.1.round_unique_connected ∨
          ∃ q ∈ l, q.2.veh = v ∧ selOf regs q.2 ≠ none) := by
  intro l
  induction l with
  | nil => intro st; simp [samplesFold]
  | cons q rest ih =>
    intro st
    rw [samplesFold_cons, ih]
    rw [ps_connected]
    by_cases hsel : selOf regs q.2 = none
    · rw [if_pos hsel]
      constructor
      · rintro (h | h)
        · exact Or.inl h
        · obtain ⟨p, hp, hpv, hpn⟩ := h
          exact Or.inr ⟨p, List.mem_cons_of_mem _ hp, hpv, hpn⟩
      · rintro (h | h)
        · exact Or.inl h
        · obtain ⟨p, hp, hpv, hpn⟩ := h
          rcases List.mem_cons.mp hp with hq | hq
          · subst hq; exact absurd hsel hpn
          · exact Or.inr ⟨p, hq, hpv, hpn⟩
    · rw [if_neg hsel, mem_insertSet]
      constructor
      · rintro ((h | h) | h)
        · exact Or.inl h
        · exact Or.inr ⟨q, List.mem_cons_self _ _, h.symm, hsel⟩
        · obtain ⟨p, hp, hpv, hpn⟩ := h
          exact Or.inr ⟨p, List.mem_cons_of_mem _ hp, hpv, hpn⟩
      · rintro (h | h)
        · exact Or.inl (Or.inl h)
        · obtain ⟨p, hp, hpv, hpn⟩ := h
          rcases List.mem_cons.mp hp with hq | hq
          · subst hq; exact Or.inl (Or.inr hpv.symm)
          · exact Or.inr ⟨p, hq, hpv, hpn⟩

lemma sf_membership (regs : Registry) (v u : String) :
    ∀ (l : List (ℚ × Sample)) (st : RoundAcc × (String → Option String)),
      (v ∈ (samplesFold regs st l).1.round_membership u ↔
        v ∈ st.1.round_membership u ∨
          ∃ q ∈ l, q.2.veh = v ∧ selOf regs q.2 = some u) := by
  intro l
  induction l with
  | nil => intro st; simp [samplesFold]
  | cons q rest ih =>
    intro st
    rw [samplesFold_cons, ih]
    rw [ps_membership]
    by_cases hsel : selOf regs q.2 = some u
    · rw [if_pos hsel, mem_insertSet]
      constructor
      · rintro ((h | h) | h)
        · exact Or.inl h
        · exact Or.inr ⟨q, List.mem_cons_self _ _, h.symm, hsel⟩
        · obtain ⟨p, hp, hpv, hpu⟩ := h
          exact Or.inr ⟨p, List.mem_cons_of_mem _ hp, hpv, hpu⟩
      · rintro (h | h)
        · exact Or.inl (Or.inl h)
        · obtain ⟨p, hp, hpv, hpu⟩ := h
          rcases List.mem_cons.mp hp with hq | hq
          · subst hq; exact Or.inl (Or.inr hpv.symm)
          · exact Or.inr ⟨p, hq, hpv, hpu⟩
    · rw [if_neg hsel]
      constructor
      · rintro (h | h)
        · exact Or.inl h
        · obtain ⟨p, hp, hpv, hpu⟩ := h
          exact Or.inr ⟨p, List.mem_cons_of_mem _ hp, hpv, hpu⟩
      · rintro (h | h)
        · exact Or.inl h
        · obtain ⟨p, hp, hpv, hpu⟩ := h
          rcases List.mem_cons.mp hp with hq | hq
          · subst hq; exact absurd hpu hsel
          · exact Or.inr ⟨p, hq, hpv, hpu⟩

lemma sf_uncovered (regs : Registry) :
    ∀ (l : List (ℚ × Sample)) (st : RoundAcc × (String → Option String)),
      (samplesFold regs st l).1.round_uncovered_vehicle_time =
        st.1.round_uncovered_vehicle_time + uncoveredTimeOf regs l := by
  intro l
  induction l with
  | nil => intro st; simp [samplesFold, uncoveredTimeOf]
  | cons q rest ih =>
    intro st
    rw [samplesFold_cons, ih]
    rw [ps_uncovered]
    unfold uncoveredTimeOf
    by_cases hsel : selOf regs q.2 = none
    · simp [hsel, List.filter_cons]
      ring
    · simp [hsel, List.filter_cons]

lemma sf_pa (regs : Registry) :
    ∀ (l : List (ℚ × Sample)) (st : RoundAcc × (String → Option String)),
      (samplesFold regs st l).2 =
        l.foldl (fun m q => upd m q.2.veh (selOf regs q.2)) st.2 := by
  intro l
  induction l with
  | nil => intro st; simp [samplesFold]
  | cons q rest ih =>
    intro st
    rw [samplesFold_cons, ih]
    rw [ps_pa, List.foldl_cons]

lemma samplesFold_map_dt (regs : Registry) (dt : ℚ) (l : List Sample)
    (st : RoundAcc × (String → Option String)) :
    samplesFold regs st (l.map (fun s => (dt, s))) =
      l.foldl (fun p smp => processSample regs dt smp p) st := by
  simp [samplesFold, List.foldl_map]

lemma foldRound_eq (regs : Registry) (pa : String → Option String)
    (steps : List (ℚ × List Sample)) :
    foldRound regs pa steps =
      samplesFold regs (reset_round_accumulators, pa) (stepSamples steps) := by
  unfold foldRound
  suffices h : ∀ (ss : List (ℚ × List Sample)) (st : RoundAcc × (String → Option String)),
      ss.foldl (fun st q => q.2.foldl (fun p smp => processSample regs q.1 smp p) st) st =
        samplesFold regs st (stepSamples ss) by
    exact h steps _
  intro ss
  induction ss with
  | nil => intro st; simp [stepSamples, samplesFold]
  | cons q rest ih =>
    intro st
    have hflat : stepSamples (q :: rest) =
        q.2.map (fun s => (q.1, s)) ++ stepSamples rest := by
      simp [stepSamples]
    rw [hflat]
    rw [List.foldl_cons]
    rw [ih]
    unfold samplesFold
    rw [List.foldl_append]
    congr 1
    have := samplesFold_map_dt regs q.1 q.2 st
    unfold samplesFold at this
    rw [this]

lemma mem_insertSorted {v w : String} :
    ∀ {l : List String}, v ∈ insertSorted w l ↔ v = w ∨ v ∈ l := by
  intro l
  induction l with
  | nil => simp [insertSorted]
  | cons a as ih =>
    unfold insertSorted
    split_ifs with h
    · simp
    · simp only [List.mem_cons, ih]
      tauto

lemma mem_sortStrings {v : String} :
    ∀ {l : List String}, v ∈ sortStrings l ↔ v ∈ l := by
  intro l
  induction l with
  | nil => simp [sortStrings]
  | cons a as ih =>
    have hs : sortStrings (a :: as) = insertSorted a (sortStrings as) := rfl
    rw [hs, mem_insertSorted, ih]
    simp

lemma selOf_mem_keys {regs : Registry} {s : Sample} {u : String}
    (h : selOf regs s = some u) : ∃ cfg, (u, cfg) ∈ regs := by
  have inv := pick_inv regs s.x s.y
  unfold selOf at h
  rcases hres : pick_closest_rsu regs s.x s.y with ⟨o1, o2⟩
  rw [hres] at inv h
  simp only at h
  subst h
  cases o2 with
  | none => exact absurd inv (by simp [PickInv])
  | some d =>
    simp only [PickInv] at inv
    obtain ⟨⟨cfg, hmem, _, _⟩, _⟩ := inv
    exact ⟨cfg, hmem⟩

lemma sum_dts_mono (p q : ℚ × Sample → Bool) :
    ∀ (l : List (ℚ × Sample)), (∀ x ∈ l, p x = true → q x = true) →
      (∀ x ∈ l, 0 ≤ x.1) →
      ((l.filter p).map Prod.fst).sum ≤ ((l.filter q).map Prod.fst).sum := by
  intro l
  induction l with
  | nil => intro _ _; simp
  | cons x xs ih =>
    intro himp hnn
    have ihx := ih (fun y hy => himp y (List.mem_cons_of_mem _ hy))
      (fun y hy => hnn y (List.mem_cons_of_mem _ hy))
    by_cases hp : p x = true
    · have hq := himp x (List.mem_cons_self _ _) hp
      simp only [List.filter_cons, hp, hq, if_true, List.map_cons, List.sum_cons]
      exact add_le_add_left ihx _
    · simp only [List.filter_cons, Bool.not_eq_true] at hp
      simp only [List.filter_cons, hp]
      by_cases hq : q x = true
      · simp only [hq, if_true, List.map_cons, List.sum_cons, Bool.false_eq_true,
          if_false]
        have : (0 : ℚ) + ((xs.filter p).map Prod.fst).sum ≤
            x.1 + ((xs.filter q).map Prod.fst).sum :=
          add_le_add (hnn x (List.mem_cons_self _ _)) ihx
        simpa using this
      · simp only [Bool.not_eq_true] at hq
        simpa [hp, hq] using ihx

lemma handoverEvent_iff (prev curr : Option String) :
    handoverEvent prev curr = true ↔
      ∃ p c, prev = some p ∧ curr = some c ∧ p ≠ c := by
  cases prev <;> cases curr <;> simp [handoverEvent]

/-- Claim C1 counterexample — the emitted membership is not a partition: in
the single round-0 record flushed by `run regsTwo batchesC1`, vehicle
`car` (in range of `u0` at the first step and of `u1` at the second,
both inside round 0) is listed under both unit ids, although the claim
demands that no vehicle id appear under two different unit ids. -/
theorem round_membership_partition_cex :
    (run regsTwo batchesC1).membership =
      [⟨0, 0, 10, [("u0", ["car"]), ("u1", ["car"])]⟩] ∧
    assignedUnits ⟨0, 0, 10, [("u0", ["car"]), ("u1", ["car"])]⟩ "car" = ["u0", "u1"] := by
  constructor
  · simp only [run, runLoop, batchesC1, regsTwo, processBatch, processSample,
      finalFlush, appendFlush, flush_round, initState, reset_round_accumulators,
      roundOf, ROUND_LENGTH, pick_closest_rsu, pickStep, inRange, dist2, upd,
      insertSet, insertSorted, sortStrings, selOf, List.foldl]
    all_goals norm_num
    all_goals simp [upd, insertSet, insertSorted, sortStrings, minOpt]
    all_goals norm_num
  · simp [assignedUnits]

/-- Claim C1 (amended) — the union half of the claim holds, the disjointness
half does not: in a flushed round's membership record, a vehicle id
appears under at least one unit iff it had at least one non-uncovered
(in-range) sample during that round, i.e. the union of the vehicle-id
lists across all units equals the set of vehicles with an in-range
sample; but (see the counterexample) the lists need not be disjoint —
a vehicle is listed under every unit the instantaneous selection
returned for it at least once that round. -/
theorem round_membership_union (regs : Registry) (pa : String → Option String)
    (steps : List (ℚ × List Sample)) (r : ℤ) (v : String) :
    (∃ pr ∈ (flush_round regs (foldRound regs pa steps).1 r).1.rsus, v ∈ pr.2) ↔
      ∃ q ∈ stepSamples steps, q.2.veh = v ∧ selOf regs q.2 ≠ none := by
  rw [foldRound_eq]
  constructor
  · rintro ⟨pr, hpr, hv⟩
    simp only [flush_round, List.mem_map] at hpr
    obtain ⟨pr0, hpr0, hpr0eq⟩ := hpr
    subst hpr0eq
    simp only at hv
    rw [mem_sortStrings] at hv
    rw [sf_membership] at hv
    rcases hv with hv | hv
    · simp [reset_round_accumulators] at hv
    · obtain ⟨q, hq, hqv, hqu⟩ := hv
      exact ⟨q, hq, hqv, by simp [hqu]⟩
  · rintro ⟨q, hq, hqv, hqn⟩
    rcases hu : selOf regs q.2 with _ | u
    · exact absurd hu hqn
    · obtain ⟨cfg, hcfg⟩ := selOf_mem_keys hu
      refine ⟨(u, sortStrings ((samplesFold regs (reset_round_accumulators, pa)
        (stepSamples steps)).1.round_membership u)), ?_, ?_⟩
      · simp only [flush_round, List.mem_map]
        exact ⟨(u, cfg), hcfg, rfl⟩
      · rw [mem_sortStrings, sf_membership]
        exact Or.inr ⟨q, hq, hqv, hu⟩

/-- Claim C3 counterexample — there is no winner-take-most assignment: on the
spec's own worked example (`v` accumulates 5 s at `u0` then 4 s at `u1`
inside round 0), the flushed record lists `v` under both units (length
2), although the claim demands exactly one unit, namely the
maximum-time unit `u0`.  The accumulated per-vehicle per-unit times of
the round are 5 at `u0` and 4 at `u1`. -/
theorem round_assignment_winner_cex :
    (run regsTwo batchesC3).membership =
      [⟨0, 0, 10, [("u0", ["v"]), ("u1", ["v"])]⟩] ∧
    vehicleUnitTime regsTwo (stepSamples stepsC3) "v" "u0" = 5 ∧
    vehicleUnitTime regsTwo (stepSamples stepsC3) "v" "u1" = 4 ∧
    (assignedUnits ⟨0, 0, 10, [("u0", ["v"]), ("u1", ["v"])]⟩ "v").length = 2 := by
  refine ⟨?_, ?_, ?_, ?_⟩
  · simp only [run, runLoop, batchesC3, regsTwo, processBatch, processSample,
      finalFlush, appendFlush, flush_round, initState, reset_round_accumulators,
      roundOf, ROUND_LENGTH, pick_closest_rsu, pickStep, inRange, dist2, upd,
      insertSet, insertSorted, sortStrings, selOf, List.foldl]
    all_goals norm_num
    all_goals simp [upd, insertSet, insertSorted, sortStrings, minOpt]
    all_goals norm_num
  · have h1 : selOf regsTwo ⟨"v", 0, 0⟩ = some "u0" := by
      norm_num [selOf, pick_closest_rsu, pickStep, inRange, dist2, regsTwo, List.foldl]
    have h3 : selOf regsTwo ⟨"v", 100, 0⟩ = some "u1" := by
      norm_num [selOf, pick_closest_rsu, pickStep, inRange, dist2, regsTwo, List.foldl]
    simp [vehicleUnitTime, stepSamples, stepsC3, h1, h3]
  · have h1 : selOf regsTwo ⟨"v", 0, 0⟩ = some "u0" := by
      norm_num [selOf, pick_closest_rsu, pickStep, inRange, dist2, regsTwo, List.foldl]
    have h3 : selOf regsTwo ⟨"v", 100, 0⟩ = some "u1" := by
      norm_num [selOf, pick_closest_rsu, pickStep, inRange, dist2, regsTwo, List.foldl]
    simp [vehicleUnitTime, stepSamples, stepsC3, h1, h3]
  · simp [assignedUnits]

/-- Claim C3 (amended) — at the end of a round each vehicle is listed under
exactly the set of units that the per-sample nearest-in-range selection
returned for it at least once during the round: `run` keeps no
per-vehicle accumulated-time table, performs no maximisation and no
lexicographic tie-break, so a vehicle connected to several units within
one round is listed under all of them. -/
theorem round_assignment_collects_units (regs : Registry)
    (pa : String → Option String) (steps : List (ℚ × List Sample)) (u v : String) :
    v ∈ (foldRound regs pa steps).1.round_membership u ↔
      ∃ q ∈ stepSamples steps, q.2.veh = v ∧ selOf regs q.2 = some u := by
  rw [foldRound_eq, sf_membership]
  simp [reset_round_accumulators]

/-- Claim C6 — a vehicle observed during a round whose every sample is out of
range of every unit is counted in the seen set but not in the connected
set, and each of its samples' `dt` goes into the uncovered-time
accumulator, whose value is exactly the `dt`-sum over all uncovered
samples and hence at least the vehicle's own elapsed sample time. -/
theorem uncovered_vehicle_accounting (regs : Registry)
    (pa : String → Option String) (steps : List (ℚ × List Sample)) (v : String)
    (hobs : ∃ q ∈ stepSamples steps, q.2.veh = v)
    (hunc : ∀ q ∈ stepSamples steps, q.2.veh = v → selOf regs q.2 = none)
    (hnn : ∀ q ∈ stepSamples steps, 0 ≤ q.1) :
    v ∈ (foldRound regs pa steps).1.round_unique_seen ∧
    v ∉ (foldRound regs pa steps).1.round_unique_connected ∧
    (foldRound regs pa steps).1.round_uncovered_vehicle_time =
      uncoveredTimeOf regs (stepSamples steps) ∧
    vehTimeOf (stepSamples steps) v ≤
      (foldRound regs pa steps).1.round_uncovered_vehicle_time := by
  have hunc2 : (foldRound regs pa steps).1.round_uncovered_vehicle_time =
      uncoveredTimeOf regs (stepSamples steps) := by
    rw [foldRound_eq, sf_uncovered]
    simp [reset_round_accumulators]
  refine ⟨?_, ?_, hunc2, ?_⟩
  · rw [foldRound_eq, sf_seen]
    simp only [reset_round_accumulators, List.not_mem_nil, false_or]
    exact hobs
  · rw [foldRound_eq, sf_connected]
    simp only [reset_round_accumulators, List.not_mem_nil, false_or]
    rintro ⟨q, hq, hqv, hqn⟩
    exact hqn (hunc q hq hqv)
  · rw [hunc2]
    unfold vehTimeOf uncoveredTimeOf
    refine sum_dts_mono _ _ (stepSamples steps) ?_ hnn
    intro q hq hp
    simp only [decide_eq_true_eq] at hp ⊢
    exact hunc q hq hp

/-- Witness for C6: with the single-unit registry `regsOne`, vehicle
`far` stays out of range for both steps of `stepsC6`; it is seen, not
connected, and the uncovered accumulator (5) dominates its sample
time. -/
theorem uncovered_vehicle_accounting_witness :
    "far" ∈ (foldRound regsOne (fun _ => none) stepsC6).1.round_unique_seen ∧
    "far" ∉ (foldRound regsOne (fun _ => none) stepsC6).1.round_unique_connected ∧
    (foldRound regsOne (fun _ => none) stepsC6).1.round_uncovered_vehicle_time =
      uncoveredTimeOf regsOne (stepSamples stepsC6) ∧
    vehTimeOf (stepSamples stepsC6) "far" ≤
      (foldRound regsOne (fun _ => none) stepsC6).1.round_uncovered_vehicle_time :=
  uncovered_vehicle_accounting regsOne (fun _ => none) stepsC6 "far"
    (by simp [stepSamples, stepsC6])
    (by
      intro q hq _
      have hfar : selOf regsOne ⟨"far", 50, 50⟩ = none := by
        norm_num [selOf, pick_closest_rsu, pickStep, inRange, dist2, regsOne,
          List.foldl]
      simp [stepSamples, stepsC6] at hq
      rcases hq with hq | hq
      · rw [hq]; exact hfar
      · rw [hq]; exact hfar)
    (by
      intro q hq
      simp [stepSamples, stepsC6] at hq
      rcases hq with hq | hq
      · rw [hq]
      · rw [hq]; norm_num)

/-- Claim C7 — on every processed sample the inline policy records a handover
exactly when the vehicle's previous and current assignments are both
non-none and differ (then `hand_out` of the previous unit and `hand_in`
of the new unit each grow by one, all other counters unchanged), and the
per-vehicle assignment state is rewritten on every sample to the
current instantaneous selection. -/
theorem inline_handover_per_sample (regs : Registry) (dt : ℚ) (s : Sample)
    (st : RoundAcc × (String → Option String)) :
    ((processSample regs dt s st).2 s.veh = selOf regs s) ∧
    (∀ w, w ≠ s.veh → (processSample regs dt s st).2 w = st.2 w) ∧
    (∀ u, (processSample regs dt s st).1.rsu_handover_out u =
      st.1.rsu_handover_out u +
        (if handoverEvent (st.2 s.veh) (selOf regs s) = true ∧ st.2 s.veh = some u
         then 1 else 0)) ∧
    (∀ u, (processSample regs dt s st).1.rsu_handover_in u =
      st.1.rsu_handover_in u +
        (if handoverEvent (st.2 s.veh) (selOf regs s) = true ∧ selOf regs s = some u
         then 1 else 0)) ∧
    (handoverEvent (st.2 s.veh) (selOf regs s) = true ↔
      ∃ p c, st.2 s.veh = some p ∧ selOf regs s = some c ∧ p ≠ c) := by
  refine ⟨?_, ?_, ps_hand_out regs dt s st, ps_hand_in regs dt s st,
    handoverEvent_iff _ _⟩
  · rw [ps_pa]
    simp [upd]
  · intro w hw
    rw [ps_pa]
    simp [upd, hw]

/-- Witness for C7 at a concrete sample: vehicle `car` previously on
`u0` and now nearest to `u1`; the assignment state of an unrelated
vehicle `x` is untouched. -/
theorem inline_handover_per_sample_witness :
    ("x" : String) ≠ "car" ∧
    (processSample regsTwo 1 ⟨"car", 100, 0⟩
      (reset_round_accumulators, fun _ => some "u0")).2 "x" = some "u0" :=
  ⟨by decide,
   (inline_handover_per_sample regsTwo 1 ⟨"car", 100, 0⟩
     (reset_round_accumulators, fun _ => some "u0")).2.1 "x" (by decide)⟩

/-! ## Flush-sequence characterisation of `run` -/

lemma compress_ne_nil (r : ℤ) : ∀ (l : List ℤ), compressRounds (r :: l) ≠ [] := by
  intro l
  induction l generalizing r with
  | nil => simp [compressRounds]
  | cons r2 rest ih =>
    unfold compressRounds
    split_ifs with h
    · exact ih r2
    · simp

lemma compress_last (r : ℤ) : ∀ (l : List ℤ),
    compressRounds (r :: l) = (compressRounds (r :: l)).dropLast ++ [lastD r l] := by
  intro l
  induction l generalizing r with
  | nil => simp [compressRounds, lastD]
  | cons r2 rest ih =>
    show compressRounds (r :: r2 :: rest) = _
    unfold compressRounds
    split_ifs with h
    · subst h
      exact ih r
    · have hne := compress_ne_nil r2 rest
      rcases hx : compressRounds (r2 :: rest) with _ | ⟨x, xs⟩
      · exact absurd hx hne
      · have ih2 := ih r2
        rw [hx] at ih2
        simp only [List.dropLast_cons₂, List.cons_append]
        rw [show lastD r (r2 :: rest) = lastD r2 rest from rfl]
        rw [show (x :: xs).dropLast ++ [lastD r2 rest] = x :: xs from ih2.symm]

lemma mapRound_appendFlush (regs : Registry) (out : Output) (acc : RoundAcc) (r : ℤ) :
    (appendFlush regs out acc r).membership.map (fun m => m.round) =
      out.membership.map (fun m => m.round) ++ [r] ∧
    (appendFlush regs out acc r).round_summary.map (fun m => m.round) =
      out.round_summary.map (fun m => m.round) ++ [r] := by
  constructor <;> simp [appendFlush, flush_round]

lemma pb_current_none (regs : Registry) (s : RunState) (out : Output) (b : Batch)
    (h : s.current_round = none) :
    (processBatch regs (s, out) b).2 = out ∧
    (processBatch regs (s, out) b).1.current_round = some (roundOf b.t) := by
  constructor <;> simp [processBatch, h]

lemma pb_current_same (regs : Registry) (s : RunState) (out : Output) (b : Batch)
    (cr : ℤ) (h : s.current_round = some cr) (heq : roundOf b.t = cr) :
    (processBatch regs (s, out) b).2 = out ∧
    (processBatch regs (s, out) b).1.current_round = some cr := by
  constructor <;> simp [processBatch, h, heq]

lemma pb_current_flush (regs : Registry) (s : RunState) (out : Output) (b : Batch)
    (cr : ℤ) (h : s.current_round = some cr) (hne : roundOf b.t ≠ cr) :
    (processBatch regs (s, out) b).2 = appendFlush regs out s.acc cr ∧
    (processBatch regs (s, out) b).1.current_round = some (roundOf b.t) := by
  constructor <;> simp [processBatch, h, hne]

lemma compress_cons2 (a b : ℤ) (l : List ℤ) :
    compressRounds (a :: b :: l) =
      if a = b then compressRounds (b :: l) else a :: compressRounds (b :: l) := rfl

lemma runLoop_rounds_from (regs : Registry) :
    ∀ (bs : List Batch) (s : RunState) (out : Output) (cr : ℤ),
      s.current_round = some cr →
      (bs.foldl (processBatch regs) (s, out)).2.membership.map (fun m => m.round) =
        out.membership.map (fun m => m.round) ++
          (compressRounds (cr :: batchRounds bs)).dropLast ∧
      (bs.foldl (processBatch regs) (s, out)).2.round_summary.map (fun m => m.round) =
        out.round_summary.map (fun m => m.round) ++
          (compressRounds (cr :: batchRounds bs)).dropLast ∧
      (bs.foldl (processBatch regs) (s, out)).1.current_round =
        some (lastD cr (batchRounds bs)) := by
  intro bs
  induction bs with
  | nil =>
    intro s out cr h
    refine ⟨?_, ?_, ?_⟩ <;> simp [batchRounds, compressRounds, lastD, h]
  | cons b rest ih =>
    intro s out cr h
    have hbr : batchRounds (b :: rest) = roundOf b.t :: batchRounds rest := rfl
    by_cases heq : roundOf b.t = cr
    · obtain ⟨hout, hcur⟩ := pb_current_same regs s out b cr h heq
      have hpair : processBatch regs (s, out) b =
          ((processBatch regs (s, out) b).1, out) := Prod.ext rfl hout
      have hcomp : compressRounds (cr :: batchRounds (b :: rest)) =
          compressRounds (cr :: batchRounds rest) := by
        rw [hbr, heq, compress_cons2]
        simp
      have hlast : lastD cr (batchRounds (b :: rest)) = lastD cr (batchRounds rest) := by
        rw [hbr, heq]
        rfl
      rw [List.foldl_cons, hpair, hcomp, hlast]
      exact ih (processBatch regs (s, out) b).1 out cr hcur
    · obtain ⟨hout, hcur⟩ := pb_current_flush regs s out b cr h heq
      have hpair : processBatch regs (s, out) b =
          ((processBatch regs (s, out) b).1, appendFlush regs out s.acc cr) :=
        Prod.ext rfl hout
      have hcne : cr ≠ roundOf b.t := fun hx => heq hx.symm
      have hcomp : compressRounds (cr :: batchRounds (b :: rest)) =
          cr :: compressRounds (roundOf b.t :: batchRounds rest) := by
        rw [hbr, compress_cons2]
        simp [hcne]
      have hdrop : (compressRounds (cr :: batchRounds (b :: rest))).dropLast =
          cr :: (compressRounds (roundOf b.t :: batchRounds rest)).dropLast := by
        rw [hcomp]
        rcases hx : compressRounds (roundOf b.t :: batchRounds rest) with _ | ⟨x, xs⟩
        · exact absurd hx (compress_ne_nil _ _)
        · simp [List.dropLast_cons₂]
      have hlast : lastD cr (batchRounds (b :: rest)) =
          lastD (roundOf b.t) (batchRounds rest) := by
        rw [hbr]
        rfl
      rw [List.foldl_cons, hpair, hdrop, hlast]
      have ih2 := ih (processBatch regs (s, out) b).1
        (appendFlush regs out s.acc cr) (roundOf b.t) hcur
      obtain ⟨hm, hs⟩ := mapRound_appendFlush regs out s.acc cr
      rw [hm, hs] at ih2
      refine ⟨?_, ?_, ih2.2.2⟩
      · rw [ih2.1]
        simp
      · rw [ih2.2.1]
        simp

lemma run_rounds (regs : Registry) (batches : List Batch) :
    (run regs batches).membership.map (fun m => m.round) =
      compressRounds (batchRounds batches) ∧
    (run regs batches).round_summary.map (fun m => m.round) =
      compressRounds (batchRounds batches) ∧
    (runAborted regs batches).membership.map (fun m => m.round) =
      (compressRounds (batchRounds batches)).dropLast ∧
    (runAborted regs batches).round_summary.map (fun m => m.round) =
      (compressRounds (batchRounds batches)).dropLast := by
  cases batches with
  | nil =>
    refine ⟨?_, ?_, ?_, ?_⟩ <;>
      simp [run, runLoop, runAborted, finalFlush, initState, batchRounds, compressRounds]
  | cons b rest =>
    have h0 : (initState, Output.mk [] [] []).1.current_round = none := rfl
    obtain ⟨hout, hcur⟩ := pb_current_none regs initState (Output.mk [] [] []) b h0
    have hpair : processBatch regs (initState, Output.mk [] [] []) b =
        ((processBatch regs (initState, Output.mk [] [] []) b).1, Output.mk [] [] []) :=
      Prod.ext rfl hout
    obtain ⟨hm, hs, hc⟩ := runLoop_rounds_from regs rest
      (processBatch regs (initState, Output.mk [] [] []) b).1
      (Output.mk [] [] []) (roundOf b.t) hcur
    simp only [List.map_nil, List.nil_append] at hm hs
    have hloop : runLoop regs (b :: rest) =
        rest.foldl (processBatch regs)
          ((processBatch regs (initState, Output.mk [] [] []) b).1, Output.mk [] [] []) := by
      rw [runLoop, List.foldl_cons, hpair]
    have hbr : batchRounds (b :: rest) = roundOf b.t :: batchRounds rest := rfl
    have habm : (runAborted regs (b :: rest)).membership.map (fun m => m.round) =
        (compressRounds (batchRounds (b :: rest))).dropLast := by
      rw [runAborted, hloop, hbr]
      exact hm
    have habs : (runAborted regs (b :: rest)).round_summary.map (fun m => m.round) =
        (compressRounds (batchRounds (b :: rest))).dropLast := by
      rw [runAborted, hloop, hbr]
      exact hs
    refine ⟨?_, ?_, habm, habs⟩
    · rw [run, finalFlush, hloop, hc]
      obtain ⟨hm2, _⟩ := mapRound_appendFlush regs
        (rest.foldl (processBatch regs)
          ((processBatch regs (initState, Output.mk [] [] []) b).1, Output.mk [] [] [])).2
        (rest.foldl (processBatch regs)
          ((processBatch regs (initState, Output.mk [] [] []) b).1, Output.mk [] [] [])).1.acc
        (lastD (roundOf b.t) (batchRounds rest))
      rw [hm2, hm, hbr]
      exact (compress_last _ _).symm
    · rw [run, finalFlush, hloop, hc]
      obtain ⟨_, hs2⟩ := mapRound_appendFlush regs
        (rest.foldl (processBatch regs)
          ((processBatch regs (initState, Output.mk [] [] []) b).1, Output.mk [] [] [])).2
        (rest.foldl (processBatch regs)
          ((processBatch regs (initState, Output.mk [] [] []) b).1, Output.mk [] [] [])).1.acc
        (lastD (roundOf b.t) (batchRounds rest))
      rw [hs2, hs, hbr]
      exact (compress_last _ _).symm

lemma roundOf_mono {a b : ℚ} (hle : a ≤ b) : roundOf a ≤ roundOf b := by
  unfold roundOf ROUND_LENGTH
  exact Int.floor_le_floor (by linarith)

lemma roundOf_step {a b : ℚ} (hle : a ≤ b) (hlt : b < a + ROUND_LENGTH) :
    roundOf b = roundOf a ∨ roundOf b = roundOf a + 1 := by
  have h1 : roundOf a ≤ roundOf b := roundOf_mono hle
  have h2 : roundOf b ≤ roundOf a + 1 := by
    unfold roundOf ROUND_LENGTH at h1 ⊢
    unfold ROUND_LENGTH at hlt
    have hdiv : b / 10 ≤ a / 10 + 1 := by linarith
    have h3 : ⌊b / 10⌋ ≤ ⌊a / 10 + 1⌋ := Int.floor_le_floor hdiv
    have h4 : ⌊a / 10 + (1 : ℚ)⌋ = ⌊a / 10⌋ + 1 := by
      have := Int.floor_add_int (a / 10) (1 : ℤ)
      push_cast at this
      exact this
    omega
  omega

lemma rangeInts_self (a : ℤ) : rangeInts a a = [a] := by
  unfold rangeInts
  have h : (a + 1 - a).toNat = 1 := by omega
  have hr : List.range 1 = [0] := rfl
  rw [h, hr]
  simp

lemma rangeInts_cons_of_le {a b : ℤ} (h : a ≤ b) :
    rangeInts a b = a :: rangeInts (a + 1) b := by
  unfold rangeInts
  have hn : (b + 1 - a).toNat = (b + 1 - (a + 1)).toNat + 1 := by omega
  rw [hn, List.range_succ_eq_map]
  simp only [List.map_cons, List.map_map, Nat.cast_zero, add_zero]
  congr 1
  apply List.map_congr_left
  intro k _
  show a + ((k + 1 : ℕ) : ℤ) = a + 1 + (k : ℤ)
  push_cast
  ring

lemma lastD_ge_of_chain01 :
    ∀ (l : List ℤ) (r : ℤ), List.Chain (fun a b => b = a ∨ b = a + 1) r l →
      r ≤ lastD r l := by
  intro l
  induction l with
  | nil => intro r _; exact le_refl _
  | cons r2 rest ih =>
    intro r hch
    rcases hch with _ | ⟨hrel, hch2⟩
    have h2 := ih r2 hch2
    show r ≤ lastD r2 rest
    rcases hrel with h | h <;> omega

lemma compress_chain01 :
    ∀ (l : List ℤ) (r : ℤ), List.Chain (fun a b => b = a ∨ b = a + 1) r l →
      compressRounds (r :: l) = rangeInts r (lastD r l) := by
  intro l
  induction l with
  | nil => intro r _; simp [compressRounds, lastD, rangeInts_self]
  | cons r2 rest ih =>
    intro r hch
    rcases hch with _ | ⟨hrel, hch2⟩
    have hlast : lastD r (r2 :: rest) = lastD r2 rest := rfl
    rcases hrel with h | h
    · subst h
      rw [compress_cons2, if_pos rfl, hlast]
      exact ih r2 hch2
    · subst h
      have hne : r ≠ r + 1 := by omega
      rw [compress_cons2, if_neg hne, hlast]
      rw [ih (r + 1) hch2]
      have hge := lastD_ge_of_chain01 rest (r + 1) hch2
      rw [rangeInts_cons_of_le (by omega : r ≤ lastD (r + 1) rest)]

lemma lastD_batchRounds :
    ∀ (rest : List Batch) (b : Batch) (h : b :: rest ≠ []),
      lastD (roundOf b.t) (batchRounds rest) =
        roundOf (((b :: rest).getLast h).t) := by
  intro rest
  induction rest with
  | nil => intro b h; rfl
  | cons b2 bs ih =>
    intro b h
    have h2 : b2 :: bs ≠ [] := by simp
    have hg : (b :: b2 :: bs).getLast h = (b2 :: bs).getLast h2 :=
      List.getLast_cons h2
    rw [hg]
    exact ih b2 h2

/-- Claim C2 counterexample — round completeness fails when the time stream
skips a round: on `batchesC2` (monotone times 5 then 25, observed rounds
0 and 2, so the run's observations span round indices 0 through 2) only
rounds 0 and 2 receive membership and summary records; round 1 gets
none, though the claim demands exactly one record for every index in
the range. -/
theorem rounds_gap_cex :
    batchRounds batchesC2 = [0, 2] ∧
    (run regsOne batchesC2).membership.map (fun m => m.round) = [0, 2] ∧
    (run regsOne batchesC2).round_summary.map (fun m => m.round) = [0, 2] ∧
    ¬ ((1 : ℤ) ∈ (run regsOne batchesC2).membership.map (fun m => m.round)) := by
  have h1 : batchRounds batchesC2 = [0, 2] := by
    norm_num [batchRounds, batchesC2, roundOf, ROUND_LENGTH]
  obtain ⟨hm, hs, _, _⟩ := run_rounds regsOne batchesC2
  rw [h1] at hm hs
  have hcomp : compressRounds [0, 2] = [0, 2] := by
    rw [compress_cons2]
    norm_num [compressRounds]
  rw [hcomp] at hm hs
  refine ⟨h1, hm, hs, ?_⟩
  rw [hm]
  decide

/-- Claim C2 (amended) — exactly one membership record and one summary record
is emitted per distinct observed round index, in stream order; when the
stream is monotone and never advances by a full `ROUND_LENGTH` or more
between steps (so that no round index is skipped), the emitted round
indices are exactly the integer interval from the first observed round
to the last observed round, with no gaps and no duplicates.  A round
index that no batch's time maps to (time jump of at least
`ROUND_LENGTH`, see the counterexample) gets no record. -/
theorem rounds_flushed_exactly_once (regs : Registry) (batches : List Batch)
    (hne : batches ≠ [])
    (hchain : List.Chain' (fun a b : Batch => a.t ≤ b.t ∧ b.t < a.t + ROUND_LENGTH)
      batches) :
    (run regs batches).membership.map (fun m => m.round) =
      rangeInts (roundOf ((batches.head hne).t)) (roundOf ((batches.getLast hne).t)) ∧
    (run regs batches).round_summary.map (fun m => m.round) =
      rangeInts (roundOf ((batches.head hne).t)) (roundOf ((batches.getLast hne).t)) := by
  obtain ⟨hm, hs, _, _⟩ := run_rounds regs batches
  cases batches with
  | nil => exact absurd rfl hne
  | cons b rest =>
    have hch : List.Chain (fun x y : Batch => x.t ≤ y.t ∧ y.t < x.t + ROUND_LENGTH)
        b rest := hchain
    have hch01 : List.Chain (fun a c => c = a ∨ c = a + 1) (roundOf b.t)
        (batchRounds rest) := by
      have hc2 : List.Chain (fun x y : Batch =>
          roundOf y.t = roundOf x.t ∨ roundOf y.t = roundOf x.t + 1) b rest :=
        List.Chain.imp (fun x y hxy => roundOf_step hxy.1 hxy.2) hch
      exact (List.chain_map (fun x : Batch => roundOf x.t)).mpr hc2
    have hcomp := compress_chain01 (batchRounds rest) (roundOf b.t) hch01
    have hbr : batchRounds (b :: rest) = roundOf b.t :: batchRounds rest := rfl
    have hlast := lastD_batchRounds rest b hne
    rw [hbr, hcomp, hlast] at hm hs
    exact ⟨hm, hs⟩

/-- Witness for C2 at `batchesC2w` (times 5, 12, 21: rounds 0, 1, 2 with
all step gaps below `ROUND_LENGTH`): the emitted round indices are
exactly `[0, 1, 2]`. -/
theorem rounds_flushed_exactly_once_witness :
    (run regsOne batchesC2w).membership.map (fun m => m.round) =
      rangeInts (roundOf ((5 : ℚ))) (roundOf ((21 : ℚ))) ∧
    (run regsOne batchesC2w).round_summary.map (fun m => m.round) =
      rangeInts (roundOf ((5 : ℚ))) (roundOf ((21 : ℚ))) :=
  rounds_flushed_exactly_once regsOne batchesC2w (by simp [batchesC2w])
    (by norm_num [batchesC2w, List.chain'_cons, ROUND_LENGTH])

/-- Claim C4 counterexample — the final flush does not run on the error exit
path: after one round-0 batch with one observed vehicle, an abort
(mid-stream exception; the `finally` block only closes traci) leaves
all three logs empty, so the open round that received an observation is
not flushed, while the same stream completing normally flushes it. -/
theorem abort_loses_open_round_cex :
    runAborted regsOne batchesC4 = Output.mk [] [] [] ∧
    (run regsOne batchesC4).membership.map (fun m => m.round) = [0] ∧
    (run regsOne batchesC4).round_summary.map (fun m => m.round) = [0] := by
  refine ⟨?_, ?_, ?_⟩
  · simp [runAborted, runLoop, batchesC4, processBatch, initState, List.foldl]
  all_goals
    obtain ⟨hm, hs, _, _⟩ := run_rounds regsOne batchesC4
    have h1 : batchRounds batchesC4 = [0] := by
      norm_num [batchRounds, batchesC4, roundOf, ROUND_LENGTH]
    rw [h1] at hm hs
    simp only [compressRounds] at hm hs
  · exact hm
  · exact hs

/-- Claim C4 (amended) — the final flush runs only on normal completion: a
normally completed run emits records for every distinct observed round
including the open one, while a run aborted by a mid-stream error emits
records only for the rounds already closed before the error — the open
round is absent from both logs (the membership and summary logs always
carry exactly the same round sequence, so a round is never partially
written), not flushed as the claim demands. -/
theorem final_flush_normal_exit_only (regs : Registry) (batches : List Batch) :
    (run regs batches).membership.map (fun m => m.round) =
      compressRounds (batchRounds batches) ∧
    (runAborted regs batches).membership.map (fun m => m.round) =
      (compressRounds (batchRounds batches)).dropLast ∧
    (runAborted regs batches).membership.map (fun m => m.round) =
      (runAborted regs batches).round_summary.map (fun m => m.round) ∧
    (run regs batches).membership.map (fun m => m.round) =
      (run regs batches).round_summary.map (fun m => m.round) := by
  obtain ⟨hm, hs, ham, has⟩ := run_rounds regs batches
  exact ⟨hm, ham, by rw [ham, has], by rw [hm, hs]⟩

/-! ## The cross-round assignment state -/

lemma pb_pa (regs : Registry) (s : RunState) (out : Output) (b : Batch) :
    (processBatch regs (s, out) b).1.prev_assignment =
      b.vehs.foldl (fun m smp => upd m smp.veh (selOf regs smp)) s.prev_assignment := by
  have key : ∀ (dt : ℚ) (st : RoundAcc × (String → Option String)),
      (b.vehs.foldl (fun p smp => processSample regs dt smp p) st).2 =
        b.vehs.foldl (fun m smp => upd m smp.veh (selOf regs smp)) st.2 := by
    intro dt st
    rw [← samplesFold_map_dt, sf_pa, List.foldl_map]
  rcases hcur : s.current_round with _ | cr
  · simp [processBatch, hcur, key]
  · by_cases heq : roundOf b.t ≠ cr <;> simp [processBatch, hcur, heq, key]

lemma foldl_pb_pa (regs : Registry) :
    ∀ (bs : List Batch) (st : RunState × Output),
      (bs.foldl (processBatch regs) st).1.prev_assignment =
        bs.foldl (fun m b => b.vehs.foldl (fun m2 smp => upd m2 smp.veh (selOf regs smp)) m)
          st.1.prev_assignment := by
  intro bs
  induction bs with
  | nil => intro st; rfl
  | cons b rest ih =>
    intro st
    rw [List.foldl_cons, List.foldl_cons, ih]
    rw [show processBatch regs st b = processBatch regs (st.1, st.2) b from rfl, pb_pa]

lemma fold_upd_at (regs : Registry) (v : String) :
    ∀ (l : List Sample) (m : String → Option String),
      (l.foldl (fun m2 smp => upd m2 smp.veh (selOf regs smp)) m) v =
        l.foldl (fun a smp => if smp.veh = v then selOf regs smp else a) (m v) := by
  intro l
  induction l with
  | nil => intro m; rfl
  | cons s rest ih =>
    intro m
    rw [List.foldl_cons, List.foldl_cons, ih]
    by_cases h : s.veh = v
    · simp [upd, h]
    · have h2 : ¬ (v = s.veh) := fun hx => h hx.symm
      simp [upd, h, h2]

lemma foldl_flatten_samples (g : Option String → Sample → Option String) :
    ∀ (L : List (List Sample)) (a : Option String),
      (L.flatten).foldl g a = L.foldl (fun a2 l => l.foldl g a2) a := by
  intro L
  induction L with
  | nil => intro a; rfl
  | cons l ls ih =>
    intro a
    rw [List.flatten_cons, List.foldl_append, List.foldl_cons, ih]

/-- Claim C8 (amended) — after any prefix of the stream, `prev_assignment`
maps each vehicle to the selection made at the vehicle's most recent
processed sample anywhere in the run (or none if never sampled): the
state persists across rounds and is never reverted when a vehicle is
absent, so a reappearing vehicle IS compared against its pre-absence
assignment.  (The offline analyser's carried state, by contrast, does
revert absent vehicles to none — see the C9 theorem.) -/
theorem prev_assignment_tracks_last_sample (regs : Registry)
    (batches : List Batch) (v : String) :
    (runLoop regs batches).1.prev_assignment v = lastAssigned regs batches v := by
  have h : ∀ (bs : List Batch) (m : String → Option String),
      (bs.foldl (fun m2 b => b.vehs.foldl
          (fun m3 smp => upd m3 smp.veh (selOf regs smp)) m2) m) v =
        bs.foldl (fun a b => b.vehs.foldl
          (fun a2 smp => if smp.veh = v then selOf regs smp else a2) a) (m v) := by
    intro bs
    induction bs with
    | nil => intro m; rfl
    | cons b rest ih =>
      intro m
      rw [List.foldl_cons, List.foldl_cons, ih, fold_upd_at]
  rw [runLoop, foldl_pb_pa, h]
  rw [lastAssigned, foldl_flatten_samples, List.foldl_map]
  rfl

/-- Claim C8 counterexample — a vehicle absent from the current round retains
its stale assignment instead of reverting to none: `w` is assigned `u0`
in round 0 of `batchesC8`, absent throughout round 1, yet after the
round-1 batch `prev_assignment` still maps it to `u0` (not none); when
`w` reappears in round 2 in range of `u1`, the round-2 statistics record
a handover `u0 → u1` — the comparison against the pre-absence assignment
the claim rules out. -/
theorem stale_assignment_cex :
    (runLoop regsTwo (batchesC8.take 2)).1.prev_assignment "w" = some "u0" ∧
    some "u0" ≠ (none : Option String) ∧
    (run regsTwo batchesC8).rsu_stats.map
        (fun r => (r.round, r.rsu_id, r.handover_out, r.handover_in)) =
      [(0, "u0", 0, 0), (0, "u1", 0, 0), (1, "u0", 0, 0), (1, "u1", 0, 0),
       (2, "u0", 1, 0), (2, "u1", 0, 1)] := by
  refine ⟨?_, by simp, ?_⟩
  · simp only [runLoop, batchesC8, List.take, processBatch, processSample,
      initState, reset_round_accumulators, roundOf, ROUND_LENGTH,
      pick_closest_rsu, pickStep, inRange, dist2, upd, insertSet, selOf,
      List.foldl]
    all_goals norm_num
    all_goals simp [upd, insertSet, minOpt]
    all_goals norm_num
  · simp only [run, runLoop, batchesC8, processBatch, processSample,
      finalFlush, appendFlush, flush_round, initState, reset_round_accumulators,
      roundOf, ROUND_LENGTH, pick_closest_rsu, pickStep, inRange, dist2, upd,
      insertSet, insertSorted, sortStrings, selOf, List.foldl]
    all_goals norm_num
    all_goals simp [regsTwo, upd, insertSet, insertSorted, sortStrings, minOpt]
    all_goals norm_num

/-! ## The offline analyser theorems -/

lemma handCounts_aux (prevA : List (String × Option String))
    (currA : List (String × String)) :
    ∀ (l : List String) (ho hi : String → ℕ) (u : String),
      ((l.foldl
          (fun ho2 v =>
            match dgetOpt prevA v, dget currA v with
            | some p, some c =>
                if p ≠ c then (upd ho2.1 p (ho2.1 p + 1), upd ho2.2 c (ho2.2 c + 1))
                else ho2
            | _, _ => ho2) (ho, hi)).1 u =
        ho u + (l.filter (handOutEvent prevA currA u)).length) ∧
      ((l.foldl
          (fun ho2 v =>
            match dgetOpt prevA v, dget currA v with
            | some p, some c =>
                if p ≠ c then (upd ho2.1 p (ho2.1 p + 1), upd ho2.2 c (ho2.2 c + 1))
                else ho2
            | _, _ => ho2) (ho, hi)).2 u =
        hi u + (l.filter (handInEvent prevA currA u)).length) := by
  intro l
  induction l with
  | nil => intro ho hi u; simp
  | cons v vs ih =>
    intro ho hi u
    rw [List.foldl_cons]
    rcases hp : dgetOpt prevA v with _ | p <;> rcases hc : dget currA v with _ | c
    · simpa [handOutEvent, handInEvent, hp, hc, List.filter_cons] using ih ho hi u
    · simpa [handOutEvent, handInEvent, hp, hc, List.filter_cons] using ih ho hi u
    · simpa [handOutEvent, handInEvent, hp, hc, List.filter_cons] using ih ho hi u
    · by_cases hpc : p = c
      · subst hpc
        simpa [handOutEvent, handInEvent, hp, hc, List.filter_cons] using ih ho hi u
      · have ih2 := ih (upd ho p (ho p + 1)) (upd hi c (hi c + 1)) u
        simp only [hp, hc, ne_eq, hpc, not_false_iff, if_true]
        rw [ih2.1, ih2.2]
        constructor
        · by_cases hup : p = u
          · subst hup
            simp [handOutEvent, hp, hc, hpc, List.filter_cons, upd]
            omega
          · have hpu : ¬ (u = p) := fun h => hup h.symm
            simp [handOutEvent, hp, hc, hpc, hup, hpu, List.filter_cons, upd]
        · by_cases huc : c = u
          · subst huc
            simp [handInEvent, hp, hc, hpc, List.filter_cons, upd]
            omega
          · have hcu : ¬ (u = c) := fun h => huc h.symm
            simp [handInEvent, hp, hc, hpc, huc, hcu, List.filter_cons, upd]

lemma handCounts_spec (prevA : List (String × Option String))
    (currA : List (String × String)) (l : List String) (u : String) :
    (handCounts prevA currA l).1 u = (l.filter (handOutEvent prevA currA u)).length ∧
    (handCounts prevA currA l).2 u = (l.filter (handInEvent prevA currA u)).length := by
  have h := handCounts_aux prevA currA l (fun _ => 0) (fun _ => 0) u
  simpa [handCounts] using h

lemma lookup_map_self {β : Type} (f : String → β) :
    ∀ (l : List String) (v : String),
      List.lookup v (l.map (fun w => (w, f w))) =
        if v ∈ l then some (f v) else none := by
  intro l
  induction l with
  | nil => intro v; simp
  | cons a as ih =>
    intro v
    by_cases h : v = a
    · subst h
      simp [List.lookup]
    · have hb : (v == a) = false := beq_eq_false_iff_ne.mpr h
      simp [List.lookup, hb, ih, h]

/-- Claim C9 — per processed round the analyser counts exactly one
`hand_out` for the old unit and one `hand_in` for the new unit for each
vehicle whose carried assignment and current inverted-membership
assignment are both non-none and differ; a vehicle absent from the
current round's membership (current assignment none) contributes no
count, and the carried-forward state rebuilt at the end of the round
maps every vehicle of `all_vehs` to its current assignment — `none` for
vehicles absent this round — so no stale assignment persists. -/
theorem analyzer_handover_recompute (prevA : List (String × Option String))
    (rec : MembershipRecord) (stats? : Option StatsRec) :
    (∀ u, (handCounts prevA (invert_membership rec.rsus)
        (allVehsOf prevA (invert_membership rec.rsus))).1 u =
      ((allVehsOf prevA (invert_membership rec.rsus)).filter
        (handOutEvent prevA (invert_membership rec.rsus) u)).length) ∧
    (∀ u, (handCounts prevA (invert_membership rec.rsus)
        (allVehsOf prevA (invert_membership rec.rsus))).2 u =
      ((allVehsOf prevA (invert_membership rec.rsus)).filter
        (handInEvent prevA (invert_membership rec.rsus) u)).length) ∧
    (∀ v, dget (invert_membership rec.rsus) v = none →
      ∀ u, handOutEvent prevA (invert_membership rec.rsus) u v = false ∧
        handInEvent prevA (invert_membership rec.rsus) u v = false) ∧
    (∀ v, List.lookup v (analyzeRound prevA rec stats?).2.2 =
      if v ∈ allVehsOf prevA (invert_membership rec.rsus)
      then some (dget (invert_membership rec.rsus) v) else none) := by
  refine ⟨fun u => (handCounts_spec _ _ _ u).1, fun u => (handCounts_spec _ _ _ u).2,
    ?_, ?_⟩
  · intro v hv u
    constructor <;> simp [handOutEvent, handInEvent, hv] <;>
      rcases dgetOpt prevA v with _ | p <;> simp
  · intro v
    have h : (analyzeRound prevA rec stats?).2.2 =
        (allVehsOf prevA (invert_membership rec.rsus)).map
          (fun w => (w, dget (invert_membership rec.rsus) w)) := by
      simp [analyzeRound]
    rw [h, lookup_map_self]

/-- Witness for C9 at the concrete fixtures: `gone` is absent from
`recC9`'s membership, so it triggers no handover count in either
direction for any unit. -/
theorem analyzer_handover_recompute_witness :
    dget (invert_membership recC9.rsus) "gone" = none ∧
    ∀ u, handOutEvent prevC9 (invert_membership recC9.rsus) u "gone" = false ∧
      handInEvent prevC9 (invert_membership recC9.rsus) u "gone" = false :=
  ⟨by decide,
   (analyzer_handover_recompute prevC9 recC9 none).2.2.1 "gone" (by decide)⟩

/-- Claim C10 — a membership record whose round is absent from the stats log
does not abort the analyser: the summary row is emitted with empty
(`none`) values for the three scalar statistics, and every per-unit row
is emitted with an empty (`none`) per-unit connected time, the counts
derived from membership alone being kept. -/
theorem analyzer_tolerates_missing_stats (prevA : List (String × Option String))
    (rec : MembershipRecord) :
    (analyzeRound prevA rec none).1 =
      { round := rec.round, t_start := rec.t_start, t_end := rec.t_end,
        vehicles_seen_count := none, vehicles_connected_count := none,
        uncovered_vehicle_time_s := none } ∧
    (analyzeRound prevA rec none).2.1 = rec.rsus.map (fun pr =>
      { round := rec.round, t_start := rec.t_start, t_end := rec.t_end,
        rsu_id := pr.1, unique_vehicles := pr.2.length,
        total_connected_time_s := none,
        handover_in := (handCounts prevA (invert_membership rec.rsus)
          (allVehsOf prevA (invert_membership rec.rsus))).2 pr.1,
        handover_out := (handCounts prevA (invert_membership rec.rsus)
          (allVehsOf prevA (invert_membership rec.rsus))).1 pr.1 }) := by
  constructor
  · simp [analyzeRound]
  · simp [analyzeRound, List.lookup]

end SumoRounds
